import Mathlib

/-!
# Qasa Discord notification bot: tracker, listing mapping and formatting

A shallow embedding of `main.go`.

* The HTTP round trip and the JSON decoding of `getListings` are the
  environment: the decoded `nodes` (or the error) are an input.
* `seenAds` is a Go `map[string]bool` in which the program only ever stores
  `true`; it is represented by the finite set of its keys, so that
  `seenAds[id]` is `id ∈ seenAds` and `len(seenAds)` is the cardinality.
* A call of `sendNotification` is recorded as a `Notification` (the listing
  and the `isNew` flag), in call order. Log output and `time.Sleep` are not
  recorded.
* The ticker loop of `monitorApartments` never ends; a run is modelled over
  the finite list of the fetch results of the ticks that have fired.
* `time.Parse` belongs to the Go library and is a parameter of
  `formatStartDate`.
-/

namespace QasaBot

/-! ## Data model -/

/-- A Go `float64`, kept as its bit pattern: the program only copies it. -/
structure Float64 where
  bits : Nat
deriving DecidableEq, Repr

/-- The `Listing` struct. -/
structure Listing where
  ID : String
  Title : String
  Description : String
  Rent : Int
  ImageURL : String
  Link : String
  Location : String
  RoomCount : Float64
  StateDate : String
  SquareMeters : Int
deriving DecidableEq, Repr

/-- One element of `uploads` in the decoded response. -/
structure Upload where
  URL : String
  Order : Int
deriving DecidableEq, Repr

/-- The `location` object of a decoded node. -/
structure NodeLocation where
  Locality : String
  Route : String
deriving DecidableEq, Repr

/-- One element of `data.homeIndexSearch.documents.nodes`. -/
structure Node where
  ID : String
  Title : String
  Description : String
  Rent : Int
  RoomCount : Float64
  SquareMeters : Int
  StartDate : String
  Location : NodeLocation
  Uploads : List Upload
deriving DecidableEq, Repr

/-! ## getListings -/

/-- The body of the loop over the uploads, on the pair
`(minOrder, imageURL)`: replaced only on a strictly smaller `Order`. -/
def imageStep (acc : Int × String) (upload : Upload) : Int × String :=
  if upload.Order < acc.1 then (upload.Order, upload.URL) else acc

/-- The `imageURL` variable of `getListings` after the uploads block:
empty when there are no uploads, otherwise the loop over all uploads,
element 0 included, that starts from the order and URL of element 0. -/
def imageURL (uploads : List Upload) : String :=
  match uploads with
  | [] => ""
  | first :: _ => (uploads.foldl imageStep (first.Order, first.URL)).2

/-- The `location` variable of `getListings`. -/
def location (loc : NodeLocation) : String :=
  if loc.Route ≠ "" then loc.Route ++ ", " ++ loc.Locality else loc.Locality

/-- The body of the loop over the nodes: the listing built from one node. -/
def nodeListing (node : Node) : Listing :=
  { ID := node.ID
    Title := node.Title
    Description := node.Description
    Rent := node.Rent
    ImageURL := imageURL node.Uploads
    Link := "https://qasa.se/home/" ++ node.ID
    Location := location node.Location
    RoomCount := node.RoomCount
    StateDate := node.StartDate
    SquareMeters := node.SquareMeters }

/-- The function `getListings`, from the outcome of the request and of the
decoding (the decoded nodes, or the error) to its result. -/
def getListings (response : Except String (List Node)) : Except String (List Listing) :=
  match response with
  | .error err => .error err
  | .ok nodes => .ok (nodes.map nodeListing)

/-! ## monitorApartments -/

/-- The global `seenAds`, as the set of its keys. -/
abbrev SeenAds := Finset String

/-- One call `sendNotification(s, listing, isNew)`. -/
structure Notification where
  listing : Listing
  isNew : Bool
deriving DecidableEq, Repr

/-- What a fetch returns: `getListings()`. -/
abbrev Fetch := Except String (List Listing)

/-- The loop of the initial scan: every listing is marked seen and, when a
channel is set, sent with `isNew = false`. -/
def initialLoop (ChannelID : String) : List Listing → SeenAds → SeenAds × List Notification
  | [], seenAds => (seenAds, [])
  | listing :: rest, seenAds =>
    let r := initialLoop ChannelID rest (insert listing.ID seenAds)
    if ChannelID ≠ "" then (r.1, ⟨listing, false⟩ :: r.2) else r

/-- The loop of one tick: a listing whose id is not in `seenAds` is marked
seen and, when a channel is set, sent with `isNew = true`. -/
def tickLoop (ChannelID : String) : List Listing → SeenAds → SeenAds × List Notification
  | [], seenAds => (seenAds, [])
  | listing :: rest, seenAds =>
    if listing.ID ∈ seenAds then tickLoop ChannelID rest seenAds
    else
      let r := tickLoop ChannelID rest (insert listing.ID seenAds)
      if ChannelID ≠ "" then (r.1, ⟨listing, true⟩ :: r.2) else r

/-- The initial population: the fetch before the ticker loop. -/
def bootstrap (ChannelID : String) (fetch : Fetch) (seenAds : SeenAds) :
    SeenAds × List Notification :=
  match fetch with
  | .error _ => (seenAds, [])
  | .ok listings => initialLoop ChannelID listings seenAds

/-- One iteration of `for range ticker.C`. -/
def cycle (ChannelID : String) (fetch : Fetch) (seenAds : SeenAds) :
    SeenAds × List Notification :=
  match fetch with
  | .error _ => (seenAds, [])
  | .ok listings => tickLoop ChannelID listings seenAds

/-- The ticker loop over the fetch results of the ticks fired so far. -/
def steadyState (ChannelID : String) : List Fetch → SeenAds → SeenAds × List Notification
  | [], seenAds => (seenAds, [])
  | fetch :: ticks, seenAds =>
    let c := cycle ChannelID fetch seenAds
    let r := steadyState ChannelID ticks c.1
    (r.1, c.2 ++ r.2)

/-- The function `monitorApartments`: the initial population from the empty
`seenAds`, then the ticker loop. The result is `seenAds` and all
notifications sent, in order. -/
def monitorApartments (ChannelID : String) (initial : Fetch) (ticks : List Fetch) :
    SeenAds × List Notification :=
  let b := bootstrap ChannelID initial ∅
  let r := steadyState ChannelID ticks b.1
  (r.1, b.2 ++ r.2)

/-! ## formatStartDate and sendNotification -/

/-- The months of Go's `time.Month`. -/
inductive Month where
  | January | February | March | April | May | June
  | July | August | September | October | November | December
deriving DecidableEq, Repr

/-- The numeric value of a `time.Month` constant: `January` is 1, up to
`December`, 12. -/
def Month.number : Month → Nat
  | .January => 1 | .February => 2 | .March => 3 | .April => 4
  | .May => 5 | .June => 6 | .July => 7 | .August => 8
  | .September => 9 | .October => 10 | .November => 11 | .December => 12

/-- The full English month name, as printed by `t.Format("January")`. -/
def Month.name : Month → String
  | .January => "January" | .February => "February" | .March => "March"
  | .April => "April" | .May => "May" | .June => "June"
  | .July => "July" | .August => "August" | .September => "September"
  | .October => "October" | .November => "November" | .December => "December"

/-- The two fields of a parsed `time.Time` that `formatStartDate` reads. -/
structure Time where
  Day : Int
  Month : Month
deriving DecidableEq, Repr

/-- The `suffix` variable of `formatStartDate` after the switch on
`day % 10` (Go's truncated remainder). -/
def suffix (day : Int) : String :=
  match Int.tmod day 10 with
  | 1 => if day ≠ 11 then "st" else "th"
  | 2 => if day ≠ 12 then "nd" else "th"
  | 3 => if day ≠ 13 then "rd" else "th"
  | _ => "th"

/-- The function `formatStartDate`; `parse` stands for
`time.Parse(time.RFC3339, ·)`, with `none` for an error. -/
def formatStartDate (parse : String → Option Time) (dateStr : String) : String :=
  if dateStr = "" then "Not specified"
  else
    match parse dateStr with
    | none => "Not specified"
    | some t => toString t.Day ++ suffix t.Day ++ " of " ++ t.Month.name

/-- The bytes of a Go string holding the text `s` (UTF-8). Go's `len` and
slicing of a string count bytes. -/
def goBytes (s : String) : List UInt8 :=
  s.data.flatMap String.utf8EncodeChar

/-- The `description` variable of `sendNotification` after the truncation
block, on the bytes of the listing's description. -/
def description (d : List UInt8) : List UInt8 :=
  if d.length > 500 then d.take 500 ++ goBytes "..." else d

/-- The `prefix` variable of `sendNotification`. -/
def messageContent (isNew : Bool) : String :=
  if isNew then "🏠 **NEW Apartment for rent!**" else "🏠 **Apartment for rent**"

/-- The message handed to `ChannelMessageSendComplex`: the content, and the
embed's title, URL, image and the arguments of its formatted description.
The timestamp is left out. -/
structure MessageSend where
  Content : String
  Title : String
  URL : String
  Rent : Int
  Location : String
  RoomCount : Float64
  SquareMeters : Int
  startDateFormatted : String
  description : List UInt8
  Color : Nat
  ImageURL : String
deriving DecidableEq, Repr

/-- The function `sendNotification`, up to the message it sends. -/
def sendNotification (parse : String → Option Time) (listing : Listing) (isNew : Bool) :
    MessageSend :=
  { Content := messageContent isNew
    Title := listing.Title
    URL := listing.Link
    Rent := listing.Rent
    Location := listing.Location
    RoomCount := listing.RoomCount
    SquareMeters := listing.SquareMeters
    startDateFormatted := formatStartDate parse listing.StateDate
    description := description (goBytes listing.Description)
    Color := 0x00FF00
    ImageURL := listing.ImageURL }

/-- A listing with the given id and otherwise empty fields. -/
def listingOf (id : String) : Listing :=
  { ID := id, Title := "", Description := "", Rent := 0, ImageURL := "",
    Link := "https://qasa.se/home/" ++ id, Location := "", RoomCount := ⟨0⟩,
    StateDate := "", SquareMeters := 0 }

/-! ## Specification-side definitions and sample data -/

/-- The ids of a sequence of listings, as a set. -/
def idSet (listings : List Listing) : Finset String :=
  (listings.map (fun l => l.ID)).toFinset

/-- Spec side of the steady-state cycle: the listings of `L` at the
positions whose id is neither in `S` nor at an earlier position of `L`, in
the order of `L`, each framed as new. -/
def newNotifications (S : Finset String) (L : List Listing) : List Notification :=
  (L.enum.filter
    (fun p => decide (p.2.ID ∉ S ∧ p.2.ID ∉ (L.take p.1).map (fun l => l.ID)))).map
    (fun p => (⟨p.2, true⟩ : Notification))

/-- The listing ids of a sequence of notifications, in order. -/
def notifiedIds (ns : List Notification) : List String :=
  ns.map (fun n => n.listing.ID)

/-- Spec side: the English ordinal suffix of a day of the month. -/
def ordinalSuffix (d : Int) : String :=
  if d = 1 ∨ d = 21 ∨ d = 31 then "st"
  else if d = 2 ∨ d = 22 then "nd"
  else if d = 3 ∨ d = 23 then "rd"
  else "th"

/-- Spec side: the full English names of the months, in calendar order. -/
def englishMonthNames : List String :=
  ["January", "February", "March", "April", "May", "June",
   "July", "August", "September", "October", "November", "December"]

/-- Spec side: the full English name of a month, by its number. -/
def englishMonthName (m : Month) : String :=
  englishMonthNames.getD (m.number - 1) ""

/-- Spec side: the URL of the first upload, in sequence order, whose order is
less than or equal to the order of every upload; empty when there is none. -/
def firstMinimumURL (uploads : List Upload) : String :=
  match uploads.find? (fun u => decide (∀ v ∈ uploads, u.Order ≤ v.Order)) with
  | some b => b.URL
  | none => ""

/-- Spec side: the location label of a route and a locality. -/
def locationLabel (route locality : String) : String :=
  if route = "" then locality else route ++ ", " ++ locality

/-- A decoded node with the given id, route, locality and uploads, and
otherwise empty fields. -/
def nodeOf (id route locality : String) (uploads : List Upload) : Node :=
  { ID := id, Title := "", Description := "", Rent := 0, RoomCount := ⟨0⟩,
    SquareMeters := 0, StartDate := "", Location := ⟨locality, route⟩, Uploads := uploads }

/-- A parse result table for the examples: the days of March 2024 named in
the examples and the fifth day of every other month of 2024, midnight UTC. -/
def sampleParse (dateStr : String) : Option Time :=
  if dateStr = "2024-03-01T00:00:00Z" then some ⟨1, .March⟩
  else if dateStr = "2024-03-02T00:00:00Z" then some ⟨2, .March⟩
  else if dateStr = "2024-03-03T00:00:00Z" then some ⟨3, .March⟩
  else if dateStr = "2024-03-04T00:00:00Z" then some ⟨4, .March⟩
  else if dateStr = "2024-03-11T00:00:00Z" then some ⟨11, .March⟩
  else if dateStr = "2024-03-12T00:00:00Z" then some ⟨12, .March⟩
  else if dateStr = "2024-03-13T00:00:00Z" then some ⟨13, .March⟩
  else if dateStr = "2024-03-21T00:00:00Z" then some ⟨21, .March⟩
  else if dateStr = "2024-03-22T00:00:00Z" then some ⟨22, .March⟩
  else if dateStr = "2024-01-05T00:00:00Z" then some ⟨5, .January⟩
  else if dateStr = "2024-02-05T00:00:00Z" then some ⟨5, .February⟩
  else if dateStr = "2024-04-05T00:00:00Z" then some ⟨5, .April⟩
  else if dateStr = "2024-05-05T00:00:00Z" then some ⟨5, .May⟩
  else if dateStr = "2024-06-05T00:00:00Z" then some ⟨5, .June⟩
  else if dateStr = "2024-07-05T00:00:00Z" then some ⟨5, .July⟩
  else if dateStr = "2024-08-05T00:00:00Z" then some ⟨5, .August⟩
  else if dateStr = "2024-09-05T00:00:00Z" then some ⟨5, .September⟩
  else if dateStr = "2024-10-05T00:00:00Z" then some ⟨5, .October⟩
  else if dateStr = "2024-11-05T00:00:00Z" then some ⟨5, .November⟩
  else if dateStr = "2024-12-05T00:00:00Z" then some ⟨5, .December⟩
  else none

/-- A text of `n` copies of the character `c`. -/
def repeated (n : Nat) (c : Char) : String :=
  String.mk (List.replicate n c)

/-- The listing with id "A" whose description is `d`. -/
def describedListing (d : String) : Listing :=
  { listingOf "A" with Description := d }

/-! ## Lemmas on the two loops -/

theorem initialLoop_seen (ch : String) (L : List Listing) (S : SeenAds) :
    (initialLoop ch L S).1 = S ∪ idSet L := by
  induction L generalizing S with
  | nil => simp [initialLoop, idSet]
  | cons l ls ih =>
    have h := ih (insert l.ID S)
    simp only [initialLoop]
    split
    · rw [h]; ext x; simp [idSet]
    · rw [h]; ext x; simp [idSet]

theorem initialLoop_sent (ch : String) (hch : ch ≠ "") (L : List Listing) (S : SeenAds) :
    (initialLoop ch L S).2 = L.map (fun l => (⟨l, false⟩ : Notification)) := by
  induction L generalizing S with
  | nil => simp [initialLoop]
  | cons l ls ih => simp [initialLoop, hch, ih]

theorem initialLoop_silent (L : List Listing) (S : SeenAds) :
    (initialLoop "" L S).2 = [] := by
  induction L generalizing S with
  | nil => simp [initialLoop]
  | cons l ls ih => simp [initialLoop, ih]

theorem tickLoop_seen (ch : String) (L : List Listing) (S : SeenAds) :
    (tickLoop ch L S).1 = S ∪ idSet L := by
  induction L generalizing S with
  | nil => simp [tickLoop, idSet]
  | cons l ls ih =>
    simp only [tickLoop]
    split
    · rename_i hmem
      rw [ih S]; ext x; simp [idSet]
      intro h; subst h; exact Or.inl hmem
    · have h := ih (insert l.ID S)
      split
      · rw [h]; ext x; simp [idSet]
      · rw [h]; ext x; simp [idSet]

theorem tickLoop_all_seen (ch : String) (L : List Listing) (S : SeenAds)
    (h : ∀ l ∈ L, l.ID ∈ S) : tickLoop ch L S = (S, []) := by
  induction L with
  | nil => simp [tickLoop]
  | cons l ls ih =>
    have hl : l.ID ∈ S := h l (List.mem_cons_self _ _)
    simp only [tickLoop, hl, if_true]
    exact ih (fun x hx => h x (List.mem_cons_of_mem _ hx))

theorem tickLoop_silent (L : List Listing) (S : SeenAds) :
    (tickLoop "" L S).2 = [] := by
  induction L generalizing S with
  | nil => simp [tickLoop]
  | cons l ls ih =>
    simp only [tickLoop]
    split
    · exact ih S
    · simp [ih]

theorem idSet_snoc (xs : List Listing) (y : Listing) (S : Finset String) :
    S ∪ idSet (xs ++ [y]) = insert y.ID (S ∪ idSet xs) := by
  ext x
  simp only [idSet, List.map_append, List.map_cons, List.map_nil, List.toFinset_append,
    List.toFinset_cons, List.toFinset_nil, Finset.mem_union, Finset.mem_insert,
    Finset.mem_singleton, insert_emptyc_eq]
  tauto

theorem tickLoop_sent_aux (ch : String) (hch : ch ≠ "") (S : Finset String)
    (ys xs : List Listing) :
    (tickLoop ch ys (S ∪ idSet xs)).2 =
      ((ys.enumFrom xs.length).filter
        (fun p => decide (p.2.ID ∉ S ∧
          p.2.ID ∉ ((xs ++ ys).take p.1).map (fun l => l.ID)))).map
        (fun p => (⟨p.2, true⟩ : Notification)) := by
  induction ys generalizing xs with
  | nil => simp [tickLoop]
  | cons y ys ih =>
    have hstep := ih (xs ++ [y])
    simp only [List.append_assoc, List.singleton_append, List.length_append,
      List.length_singleton] at hstep
    have hmem : y.ID ∈ S ∪ idSet xs ↔ ¬ (y.ID ∉ S ∧ y.ID ∉ xs.map (fun l => l.ID)) := by
      simp [idSet]; tauto
    simp only [tickLoop, List.enumFrom_cons, List.filter_cons]
    by_cases hy : y.ID ∈ S ∪ idSet xs
    · have hs : S ∪ idSet (xs ++ [y]) = S ∪ idSet xs := by
        rw [idSet_snoc]; exact Finset.insert_eq_of_mem hy
      rw [hs] at hstep
      have hp : ¬ (y.ID ∉ S ∧ y.ID ∉ xs.map (fun l => l.ID)) := hmem.mp hy
      simp only [hy, if_true, List.take_left, hp, decide_False, Bool.false_eq_true, if_false]
      exact hstep
    · have hp : (y.ID ∉ S ∧ y.ID ∉ xs.map (fun l => l.ID)) := by
        by_contra hc; exact hy (hmem.mpr hc)
      rw [idSet_snoc] at hstep
      simp only [hy, if_false, hch, ne_eq, not_false_eq_true, if_true, List.take_left, hp,
        decide_True, and_self, List.map_cons, hstep]

theorem tickLoop_sent (ch : String) (hch : ch ≠ "") (S : Finset String) (L : List Listing) :
    (tickLoop ch L S).2 = newNotifications S L := by
  have h := tickLoop_sent_aux ch hch S L []
  simpa [idSet, newNotifications, List.enum] using h

theorem tickLoop_fresh (ch : String) (L : List Listing) (S : SeenAds) :
    ∀ id ∈ notifiedIds (tickLoop ch L S).2, id ∉ S ∧ id ∈ (tickLoop ch L S).1 := by
  induction L generalizing S with
  | nil => simp [tickLoop, notifiedIds]
  | cons l ls ih =>
    simp only [tickLoop]
    split
    · exact ih S
    · rename_i hl
      have hrec := ih (insert l.ID S)
      have hsub : l.ID ∈ (tickLoop ch ls (insert l.ID S)).1 := by
        rw [tickLoop_seen]; simp
      have hrec2 : ∀ id ∈ notifiedIds (tickLoop ch ls (insert l.ID S)).2,
          id ∉ S ∧ id ∈ (tickLoop ch ls (insert l.ID S)).1 := by
        intro id hid
        have h := hrec id hid
        exact ⟨fun hs => h.1 (Finset.mem_insert_of_mem hs), h.2⟩
      split
      · intro id hid
        simp only [notifiedIds, List.map_cons, List.mem_cons] at hid
        rcases hid with hid | hid
        · subst hid; exact ⟨hl, hsub⟩
        · exact hrec2 id hid
      · exact hrec2

theorem tickLoop_nodup (ch : String) (L : List Listing) (S : SeenAds) :
    (notifiedIds (tickLoop ch L S).2).Nodup := by
  induction L generalizing S with
  | nil => simp [tickLoop, notifiedIds]
  | cons l ls ih =>
    simp only [tickLoop]
    split
    · exact ih S
    · split
      · simp only [notifiedIds, List.map_cons, List.nodup_cons]
        refine ⟨fun hmem => ?_, ih (insert l.ID S)⟩
        exact (tickLoop_fresh ch ls (insert l.ID S) l.ID hmem).1 (Finset.mem_insert_self _ _)
      · exact ih (insert l.ID S)

theorem cycle_fresh (ch : String) (f : Fetch) (S : SeenAds) :
    ∀ id ∈ notifiedIds (cycle ch f S).2, id ∉ S ∧ id ∈ (cycle ch f S).1 := by
  cases f with
  | error e => simp [cycle, notifiedIds]
  | ok L => exact tickLoop_fresh ch L S

theorem cycle_nodup (ch : String) (f : Fetch) (S : SeenAds) :
    (notifiedIds (cycle ch f S).2).Nodup := by
  cases f with
  | error e => simp [cycle, notifiedIds]
  | ok L => exact tickLoop_nodup ch L S

theorem cycle_subset (ch : String) (f : Fetch) (S : SeenAds) : S ⊆ (cycle ch f S).1 := by
  cases f with
  | error e => simp [cycle]
  | ok L => simp only [cycle]; rw [tickLoop_seen]; exact Finset.subset_union_left

theorem bootstrap_subset (ch : String) (f : Fetch) (S : SeenAds) :
    S ⊆ (bootstrap ch f S).1 := by
  cases f with
  | error e => simp [bootstrap]
  | ok L => simp only [bootstrap]; rw [initialLoop_seen]; exact Finset.subset_union_left

theorem steadyState_subset (ch : String) (ticks : List Fetch) (S : SeenAds) :
    S ⊆ (steadyState ch ticks S).1 := by
  induction ticks generalizing S with
  | nil => simp [steadyState]
  | cons f fs ih =>
    simp only [steadyState]
    exact (cycle_subset ch f S).trans (ih _)

theorem steadyState_fresh_nodup (ch : String) (ticks : List Fetch) (S : SeenAds) :
    (notifiedIds (steadyState ch ticks S).2).Nodup ∧
      ∀ id ∈ notifiedIds (steadyState ch ticks S).2, id ∉ S := by
  induction ticks generalizing S with
  | nil => simp [steadyState, notifiedIds]
  | cons f fs ih =>
    obtain ⟨hnd, hfresh⟩ := ih (cycle ch f S).1
    simp only [steadyState, notifiedIds, List.map_append] at *
    refine ⟨?_, ?_⟩
    · rw [List.nodup_append]
      refine ⟨cycle_nodup ch f S, hnd, ?_⟩
      intro id h1 h2
      exact hfresh id h2 (cycle_fresh ch f S id h1).2
    · intro id hid
      rcases List.mem_append.mp hid with h | h
      · exact (cycle_fresh ch f S id h).1
      · exact fun hs => hfresh id h (cycle_subset ch f S hs)

theorem bootstrap_sent_ids (ch : String) (L : List Listing) (S : SeenAds) :
    notifiedIds (initialLoop ch L S).2 = (if ch ≠ "" then L.map (fun l => l.ID) else []) := by
  by_cases hch : ch = ""
  · subst hch; simp [initialLoop_silent, notifiedIds]
  · simp [initialLoop_sent ch hch, notifiedIds, hch, Function.comp_def]

theorem monitor_nodup (ch : String) (initial : Fetch) (ticks : List Fetch)
    (h0 : ∀ L, initial = .ok L → (L.map (fun l => l.ID)).Nodup) :
    (notifiedIds (monitorApartments ch initial ticks).2).Nodup := by
  obtain ⟨hnd, hfresh⟩ := steadyState_fresh_nodup ch ticks (bootstrap ch initial ∅).1
  simp only [monitorApartments, notifiedIds, List.map_append] at *
  rw [List.nodup_append]
  cases initial with
  | error e =>
    refine ⟨by simp [bootstrap], hnd, ?_⟩
    intro id h1
    simp [bootstrap] at h1
  | ok L =>
    have hb := bootstrap_sent_ids ch L ∅
    simp only [notifiedIds] at hb
    simp only [bootstrap] at *
    rw [hb]
    refine ⟨?_, hnd, ?_⟩
    · split
      · exact h0 L rfl
      · exact List.nodup_nil
    · intro id h1 h2
      apply hfresh id h2
      rw [initialLoop_seen]
      split at h1
      · simp only [idSet, Finset.mem_union, List.mem_toFinset]; exact Or.inr h1
      · simp at h1

/-! ## The tracker: steady-state cycle, bootstrap, invariants -/

/-- C1: with a channel configured, a steady-state cycle over a successfully
fetched `L` from the seen-set `S` sends exactly the listings of `L` whose id
is not in `S` and does not occur earlier in `L`, in the order of `L` (the
sent listings are a sublist of `L`), each with `isNew = true`, and leaves
the seen-set equal to `S` together with every id of `L`. -/
theorem cycle_sends_unseen_in_order (ChannelID : String) (hch : ChannelID ≠ "")
    (S : SeenAds) (L : List Listing) :
    (cycle ChannelID (.ok L) S).2 = newNotifications S L ∧
    (∀ n ∈ (cycle ChannelID (.ok L) S).2, n.isNew = true) ∧
    List.Sublist ((cycle ChannelID (.ok L) S).2.map (fun n => n.listing)) L ∧
    (cycle ChannelID (.ok L) S).1 = S ∪ idSet L := by
  have hs : (cycle ChannelID (.ok L) S).2 = newNotifications S L :=
    tickLoop_sent ChannelID hch S L
  refine ⟨hs, ?_, ?_, tickLoop_seen ChannelID L S⟩
  · intro n hn
    rw [hs] at hn
    simp only [newNotifications, List.mem_map] at hn
    obtain ⟨p, _, rfl⟩ := hn
    rfl
  · rw [hs]
    simp only [newNotifications, List.map_map]
    have h : List.Sublist
        ((L.enum.filter (fun p => decide (p.2.ID ∉ S ∧
          p.2.ID ∉ (L.take p.1).map (fun l => l.ID)))).map Prod.snd) (L.enum.map Prod.snd) :=
      List.Sublist.map _ (List.filter_sublist _)
    rw [List.enum_map_snd] at h
    exact h

/-- C1, instance: from the seen-set {A, B, C}, a cycle that fetches
A, B, C, D sends one notification, for D, framed as new, and the seen-set
then has 4 elements. -/
theorem cycle_sends_unseen_in_order_witness :
    ("1234" : String) ≠ "" ∧
    (cycle "1234" (.ok [listingOf "A", listingOf "B", listingOf "C", listingOf "D"])
      {"A", "B", "C"}).2 = [⟨listingOf "D", true⟩] ∧
    (cycle "1234" (.ok [listingOf "A", listingOf "B", listingOf "C", listingOf "D"])
      {"A", "B", "C"}).1.card = 4 := by
  have h := cycle_sends_unseen_in_order "1234" (by decide) {"A", "B", "C"}
    [listingOf "A", listingOf "B", listingOf "C", listingOf "D"]
  refine ⟨by decide, ?_, ?_⟩
  · rw [h.1]; decide
  · rw [h.2.2.2]; decide

/-- C4: with a channel configured, the bootstrap pass from the empty
seen-set over a successfully fetched `L` leaves the seen-set equal to the set
of ids of `L` and sends one notification for each element of `L`, in the
order of `L`, each with `isNew = false`; their number is the length of `L`. -/
theorem bootstrap_marks_and_sends_all (ChannelID : String) (hch : ChannelID ≠ "")
    (L : List Listing) :
    (bootstrap ChannelID (.ok L) ∅).1 = idSet L ∧
    (bootstrap ChannelID (.ok L) ∅).2 = L.map (fun l => (⟨l, false⟩ : Notification)) ∧
    (bootstrap ChannelID (.ok L) ∅).2.length = L.length := by
  have hs : (bootstrap ChannelID (.ok L) ∅).2 = L.map (fun l => (⟨l, false⟩ : Notification)) :=
    initialLoop_sent ChannelID hch L ∅
  refine ⟨?_, hs, ?_⟩
  · simp only [bootstrap]; rw [initialLoop_seen]; simp
  · rw [hs]; simp

/-- C4, instance: a bootstrap fetch of A, B, C sends 3 notifications framed
as existing and leaves a seen-set of size 3. -/
theorem bootstrap_marks_and_sends_all_witness :
    ("1234" : String) ≠ "" ∧
    (bootstrap "1234" (.ok [listingOf "A", listingOf "B", listingOf "C"]) ∅).2 =
      [⟨listingOf "A", false⟩, ⟨listingOf "B", false⟩, ⟨listingOf "C", false⟩] ∧
    (bootstrap "1234" (.ok [listingOf "A", listingOf "B", listingOf "C"]) ∅).1.card = 3 := by
  have h := bootstrap_marks_and_sends_all "1234" (by decide)
    [listingOf "A", listingOf "B", listingOf "C"]
  refine ⟨by decide, ?_, ?_⟩
  · rw [h.2.1]; rfl
  · rw [h.1]; decide

/-- C5: in every cycle, bootstrap or steady-state, whatever the fetch returns
and whether or not a channel is set, every id of the seen-set before the
cycle is in the seen-set after it, so its size does not decrease; the same
holds over any number of steady-state cycles. -/
theorem seenAds_never_shrinks (ChannelID : String) (fetch : Fetch) (ticks : List Fetch)
    (S : SeenAds) :
    S ⊆ (bootstrap ChannelID fetch S).1 ∧ S.card ≤ (bootstrap ChannelID fetch S).1.card ∧
    S ⊆ (cycle ChannelID fetch S).1 ∧ S.card ≤ (cycle ChannelID fetch S).1.card ∧
    S ⊆ (steadyState ChannelID ticks S).1 ∧
    S.card ≤ (steadyState ChannelID ticks S).1.card :=
  ⟨bootstrap_subset ChannelID fetch S, Finset.card_le_card (bootstrap_subset ChannelID fetch S),
   cycle_subset ChannelID fetch S, Finset.card_le_card (cycle_subset ChannelID fetch S),
   steadyState_subset ChannelID ticks S,
   Finset.card_le_card (steadyState_subset ChannelID ticks S)⟩

/-- C3: after a successful pass over `L`, bootstrap or steady-state, from any
seen-set, a steady-state cycle that fetches the same `L` sends nothing and
leaves the seen-set unchanged. -/
theorem same_fetch_twice_sends_nothing (ChannelID : String) (S : SeenAds) (L : List Listing) :
    cycle ChannelID (.ok L) (bootstrap ChannelID (.ok L) S).1 =
      ((bootstrap ChannelID (.ok L) S).1, []) ∧
    cycle ChannelID (.ok L) (cycle ChannelID (.ok L) S).1 =
      ((cycle ChannelID (.ok L) S).1, []) := by
  have hmem : ∀ l ∈ L, l.ID ∈ S ∪ idSet L := by
    intro l hl
    simp only [idSet, Finset.mem_union, List.mem_toFinset, List.mem_map]
    exact Or.inr ⟨l, hl, rfl⟩
  constructor
  · simp only [cycle, bootstrap]
    apply tickLoop_all_seen
    rw [initialLoop_seen]; exact hmem
  · simp only [cycle]
    apply tickLoop_all_seen
    rw [tickLoop_seen]; exact hmem

/-- C6: a cycle whose fetch fails, bootstrap or steady-state, leaves the
seen-set as it was and sends nothing, and the tracker goes on: the ticker
loop continues with the remaining ticks from the same seen-set, and after a
failed bootstrap the ticker loop runs from the empty seen-set. -/
theorem fetch_error_skips_cycle (ChannelID : String) (err : String) (S : SeenAds)
    (ticks : List Fetch) :
    bootstrap ChannelID (.error err) S = (S, []) ∧
    cycle ChannelID (.error err) S = (S, []) ∧
    steadyState ChannelID (.error err :: ticks) S = steadyState ChannelID ticks S ∧
    monitorApartments ChannelID (.error err) ticks = steadyState ChannelID ticks ∅ := by
  refine ⟨rfl, rfl, ?_, ?_⟩
  · simp [steadyState, cycle]
  · simp [monitorApartments, bootstrap]

/-- C2: over a whole run, a bootstrap fetch followed by any finite sequence
of steady-state cycles, each fetch failing or returning listings with
pairwise distinct ids, the notifications sent contain each listing id at most
once. -/
theorem no_id_notified_twice (ChannelID : String) (initial : Fetch) (ticks : List Fetch)
    (h0 : ∀ L, initial = .ok L → (L.map (fun l => l.ID)).Nodup)
    (_hticks : ∀ f ∈ ticks, ∀ L, f = .ok L → (L.map (fun l => l.ID)).Nodup) :
    (notifiedIds (monitorApartments ChannelID initial ticks).2).Nodup :=
  monitor_nodup ChannelID initial ticks h0

/-- C2, instance: bootstrap A, B; then ticks A, B, C; a failed fetch; C, D. -/
theorem no_id_notified_twice_witness :
    notifiedIds (monitorApartments "1234" (.ok [listingOf "A", listingOf "B"])
      [.ok [listingOf "A", listingOf "B", listingOf "C"], .error "timeout",
       .ok [listingOf "C", listingOf "D"]]).2 = ["A", "B", "C", "D"] ∧
    (notifiedIds (monitorApartments "1234" (.ok [listingOf "A", listingOf "B"])
      [.ok [listingOf "A", listingOf "B", listingOf "C"], .error "timeout",
       .ok [listingOf "C", listingOf "D"]]).2).Nodup := by
  refine ⟨by decide, no_id_notified_twice _ _ _ ?_ ?_⟩
  · intro L h
    cases h
    decide
  · intro f hf L h
    subst h
    simp only [List.mem_cons, List.mem_singleton, Except.ok.injEq, List.not_mem_nil,
      or_false, reduceCtorEq, false_or] at hf
    rcases hf with hf | hf <;> subst hf <;> decide

/-! ## Image selection -/

theorem imageURL_cons (first : Upload) (rest : List Upload) :
    imageURL (first :: rest) = (rest.foldl imageStep (first.Order, first.URL)).2 := by
  simp [imageURL, List.foldl_cons, imageStep]

theorem imageStep_foldl_split (ys pre mid : List Upload) (b : Upload)
    (hpre : ∀ v ∈ pre, b.Order < v.Order) (hmid : ∀ v ∈ mid, b.Order ≤ v.Order) :
    ∃ pre2 b2 post2, pre ++ b :: mid ++ ys = pre2 ++ b2 :: post2 ∧
      ys.foldl imageStep (b.Order, b.URL) = (b2.Order, b2.URL) ∧
      (∀ v ∈ pre2, b2.Order < v.Order) ∧ (∀ v ∈ post2, b2.Order ≤ v.Order) := by
  induction ys generalizing pre mid b with
  | nil => exact ⟨pre, b, mid, by simp, rfl, hpre, hmid⟩
  | cons y ys ih =>
    by_cases hy : y.Order < b.Order
    · have h := ih (pre ++ b :: mid) [] y
        (by
          intro v hv
          rcases List.mem_append.mp hv with h1 | h1
          · exact lt_trans hy (hpre v h1)
          · rcases List.mem_cons.mp h1 with h2 | h2
            · subst h2; exact hy
            · exact lt_of_lt_of_le hy (hmid v h2))
        (by simp)
      obtain ⟨pre2, b2, post2, heq, hf, h1, h2⟩ := h
      refine ⟨pre2, b2, post2, ?_, ?_, h1, h2⟩
      · rw [← heq]; simp
      · simp only [List.foldl_cons, imageStep, hy, if_true]
        exact hf
    · have h := ih pre (mid ++ [y]) b hpre
        (by
          intro v hv
          rcases List.mem_append.mp hv with h1 | h1
          · exact hmid v h1
          · simp only [List.mem_singleton] at h1
            subst h1; exact not_lt.mp hy)
      obtain ⟨pre2, b2, post2, heq, hf, h1, h2⟩ := h
      refine ⟨pre2, b2, post2, ?_, ?_, h1, h2⟩
      · rw [← heq]; simp
      · simp only [List.foldl_cons, imageStep, hy, if_false]
        exact hf

theorem find_first_min (pre post : List Upload) (b : Upload)
    (hpre : ∀ v ∈ pre, b.Order < v.Order) (hpost : ∀ v ∈ post, b.Order ≤ v.Order) :
    (pre ++ b :: post).find?
      (fun u => decide (∀ v ∈ pre ++ b :: post, u.Order ≤ v.Order)) = some b := by
  have hb : ∀ v ∈ pre ++ b :: post, b.Order ≤ v.Order := by
    intro v hv
    rcases List.mem_append.mp hv with h1 | h1
    · exact le_of_lt (hpre v h1)
    · rcases List.mem_cons.mp h1 with h2 | h2
      · subst h2; exact le_refl _
      · exact hpost v h2
  rw [List.find?_append]
  have hnone : pre.find?
      (fun u => decide (∀ v ∈ pre ++ b :: post, u.Order ≤ v.Order)) = none := by
    rw [List.find?_eq_none]
    intro x hx hp
    have h := of_decide_eq_true hp b (by simp)
    exact absurd (hpre x hx) (not_lt.mpr h)
  rw [hnone]
  simp only [Option.none_or]
  rw [List.find?_cons_of_pos]
  exact decide_eq_true hb

theorem imageURL_split (uploads : List Upload) (hne : uploads ≠ []) :
    ∃ pre b post, uploads = pre ++ b :: post ∧
      uploads.find? (fun u => decide (∀ v ∈ uploads, u.Order ≤ v.Order)) = some b ∧
      imageURL uploads = b.URL ∧
      (∀ v ∈ uploads, b.Order ≤ v.Order) ∧
      (∀ v ∈ pre, b.Order < v.Order) := by
  cases uploads with
  | nil => exact absurd rfl hne
  | cons first rest =>
    obtain ⟨pre, b, post, heq, hf, h1, h2⟩ :=
      imageStep_foldl_split rest [] [] first (by simp) (by simp)
    simp only [List.nil_append, List.singleton_append] at heq
    refine ⟨pre, b, post, heq, ?_, ?_, ?_, h1⟩
    · rw [heq]; exact find_first_min pre post b h1 h2
    · rw [imageURL_cons, hf]
    · rw [heq]
      intro v hv
      rcases List.mem_append.mp hv with h3 | h3
      · exact le_of_lt (h1 v h3)
      · rcases List.mem_cons.mp h3 with h4 | h4
        · subst h4; exact le_refl _
        · exact h2 v h4

theorem imageURL_eq_firstMinimumURL (uploads : List Upload) :
    imageURL uploads = firstMinimumURL uploads := by
  by_cases hne : uploads = []
  · subst hne; rfl
  · obtain ⟨pre, b, post, _, hfind, hurl, _, _⟩ := imageURL_split uploads hne
    simp only [firstMinimumURL, hfind, hurl]

/-- C7: the `ImageURL` of every listing returned by `getListings` is, for the
uploads of its node: the empty string when the sequence is empty; otherwise
the URL of the first element, in sequence order, whose order is less than or
equal to the order of every element (the minimum); every element before it
has a strictly greater order, so on a tie for the minimum the earliest
element is taken, not the last. -/
theorem getListings_imageURL_first_minimum (nodes : List Node) :
    (∃ listings, getListings (.ok nodes) = .ok listings ∧
      listings.map (fun l => l.ImageURL) =
        nodes.map (fun n => firstMinimumURL n.Uploads)) ∧
    (∀ node : Node,
      (node.Uploads = [] → (nodeListing node).ImageURL = "") ∧
      (node.Uploads ≠ [] →
        ∃ pre b post, node.Uploads = pre ++ b :: post ∧
          node.Uploads.find?
            (fun u => decide (∀ v ∈ node.Uploads, u.Order ≤ v.Order)) = some b ∧
          (nodeListing node).ImageURL = b.URL ∧
          (∀ v ∈ node.Uploads, b.Order ≤ v.Order) ∧
          (∀ v ∈ pre, b.Order < v.Order))) := by
  constructor
  · refine ⟨nodes.map nodeListing, rfl, ?_⟩
    rw [List.map_map]
    apply List.map_congr_left
    intro n _
    exact imageURL_eq_firstMinimumURL n.Uploads
  · intro node
    constructor
    · intro h
      show imageURL node.Uploads = ""
      rw [h]; rfl
    · intro hne
      exact imageURL_split node.Uploads hne

/-- C7, instance: a response with three nodes, with uploads of orders
2, 1, 1, 3, with no uploads, and with orders 7, 7: the listings carry the
first upload of order 1, the empty string, and the first upload of order 7. -/
theorem getListings_imageURL_first_minimum_witness :
    ∃ listings,
      getListings (.ok [nodeOf "A" "Storgata" "Oslo" [⟨"a", 2⟩, ⟨"b", 1⟩, ⟨"c", 1⟩, ⟨"d", 3⟩],
        nodeOf "B" "" "Oslo" [], nodeOf "C" "" "Oslo" [⟨"x", 7⟩, ⟨"y", 7⟩]]) = .ok listings ∧
      listings.map (fun l => l.ImageURL) = ["b", "", "x"] := by
  obtain ⟨listings, h1, h2⟩ := (getListings_imageURL_first_minimum
    [nodeOf "A" "Storgata" "Oslo" [⟨"a", 2⟩, ⟨"b", 1⟩, ⟨"c", 1⟩, ⟨"d", 3⟩],
      nodeOf "B" "" "Oslo" [], nodeOf "C" "" "Oslo" [⟨"x", 7⟩, ⟨"y", 7⟩]]).1
  refine ⟨listings, h1, ?_⟩
  rw [h2]
  decide

/-! ## Location label -/

theorem location_iff (route locality : String) :
    (location ⟨locality, route⟩ = route ++ ", " ++ locality ↔ route ≠ "") ∧
    (route = "" → location ⟨locality, route⟩ = locality) := by
  refine ⟨⟨?_, ?_⟩, ?_⟩
  · intro h hr
    subst hr
    have hl := congrArg String.length h
    simp only [location, ne_eq, not_true_eq_false, if_false, String.length_append] at hl
    have h2 : (", " : String).length = 2 := by decide
    have h0 : ("" : String).length = 0 := by decide
    omega
  · intro hr
    simp [location, hr]
  · intro hr
    simp [location, hr]

theorem location_eq_locationLabel (loc : NodeLocation) :
    location loc = locationLabel loc.Route loc.Locality := by
  by_cases h : loc.Route = "" <;> simp [location, locationLabel, h]

/-- C10: the `Location` of every listing returned by `getListings` is, for
the route and the locality of its node: route, comma and space, locality
exactly when the route is not empty, and the locality alone when the route is
empty. -/
theorem getListings_location_route_iff (nodes : List Node) :
    (∃ listings, getListings (.ok nodes) = .ok listings ∧
      listings.map (fun l => l.Location) =
        nodes.map (fun n => locationLabel n.Location.Route n.Location.Locality)) ∧
    (∀ node : Node,
      ((nodeListing node).Location =
          node.Location.Route ++ ", " ++ node.Location.Locality ↔
        node.Location.Route ≠ "") ∧
      (node.Location.Route = "" → (nodeListing node).Location = node.Location.Locality)) := by
  constructor
  · refine ⟨nodes.map nodeListing, rfl, ?_⟩
    rw [List.map_map]
    apply List.map_congr_left
    intro n _
    exact location_eq_locationLabel n.Location
  · intro node
    exact location_iff node.Location.Route node.Location.Locality

/-- C10, instance: a response with a node with route and locality and a node
with a locality only. -/
theorem getListings_location_route_iff_witness :
    ∃ listings,
      getListings (.ok [nodeOf "A" "Storgata" "Oslo" [], nodeOf "B" "" "Bergen" []]) =
        .ok listings ∧
      listings.map (fun l => l.Location) = ["Storgata, Oslo", "Bergen"] := by
  obtain ⟨listings, h1, h2⟩ := (getListings_location_route_iff
    [nodeOf "A" "Storgata" "Oslo" [], nodeOf "B" "" "Bergen" []]).1
  refine ⟨listings, h1, ?_⟩
  rw [h2]
  decide

/-! ## Start date -/

theorem suffix_eq_ordinalSuffix (d : Int) (h1 : 1 ≤ d) (h31 : d ≤ 31) :
    suffix d = ordinalSuffix d := by
  interval_cases d <;> decide

theorem name_eq_englishMonthName (m : Month) : m.name = englishMonthName m := by
  cases m <;> rfl

/-- C9: a non-empty start date that parses to day `d` (1 to 31) of month `m`
is rendered as the day number, its English ordinal suffix ("st" for 1, 21,
31; "nd" for 2, 22; "rd" for 3, 23; "th" otherwise, so for 11, 12, 13), the
word "of" and the full English name of `m`; an empty or unparseable start
date is rendered as "Not specified". -/
theorem formatStartDate_ordinal (parse : String → Option Time) (dateStr : String) :
    (∀ d m, dateStr ≠ "" → parse dateStr = some ⟨d, m⟩ → 1 ≤ d → d ≤ 31 →
      formatStartDate parse dateStr =
        toString d ++ ordinalSuffix d ++ " of " ++ englishMonthName m) ∧
    (dateStr = "" ∨ parse dateStr = none → formatStartDate parse dateStr = "Not specified") := by
  constructor
  · intro d m hne hp h1 h31
    simp only [formatStartDate, hne, if_false, hp, suffix_eq_ordinalSuffix d h1 h31,
      name_eq_englishMonthName]
  · rintro (h | h)
    · simp [formatStartDate, h]
    · simp only [formatStartDate, h]
      split <;> rfl

/-- C9, instances: the days 1, 2, 3, 4, 11, 12, 13, 21, 22 of March, the
fifth day of each of the other eleven months, and an empty and an
unparseable input. -/
theorem formatStartDate_ordinal_witness :
    formatStartDate sampleParse "2024-03-21T00:00:00Z" = "21st of March" ∧
    formatStartDate sampleParse "2024-03-01T00:00:00Z" = "1st of March" ∧
    formatStartDate sampleParse "2024-03-02T00:00:00Z" = "2nd of March" ∧
    formatStartDate sampleParse "2024-03-03T00:00:00Z" = "3rd of March" ∧
    formatStartDate sampleParse "2024-03-04T00:00:00Z" = "4th of March" ∧
    formatStartDate sampleParse "2024-03-11T00:00:00Z" = "11th of March" ∧
    formatStartDate sampleParse "2024-03-12T00:00:00Z" = "12th of March" ∧
    formatStartDate sampleParse "2024-03-13T00:00:00Z" = "13th of March" ∧
    formatStartDate sampleParse "2024-03-22T00:00:00Z" = "22nd of March" ∧
    formatStartDate sampleParse "2024-01-05T00:00:00Z" = "5th of January" ∧
    formatStartDate sampleParse "2024-02-05T00:00:00Z" = "5th of February" ∧
    formatStartDate sampleParse "2024-04-05T00:00:00Z" = "5th of April" ∧
    formatStartDate sampleParse "2024-05-05T00:00:00Z" = "5th of May" ∧
    formatStartDate sampleParse "2024-06-05T00:00:00Z" = "5th of June" ∧
    formatStartDate sampleParse "2024-07-05T00:00:00Z" = "5th of July" ∧
    formatStartDate sampleParse "2024-08-05T00:00:00Z" = "5th of August" ∧
    formatStartDate sampleParse "2024-09-05T00:00:00Z" = "5th of September" ∧
    formatStartDate sampleParse "2024-10-05T00:00:00Z" = "5th of October" ∧
    formatStartDate sampleParse "2024-11-05T00:00:00Z" = "5th of November" ∧
    formatStartDate sampleParse "2024-12-05T00:00:00Z" = "5th of December" ∧
    formatStartDate sampleParse "" = "Not specified" ∧
    formatStartDate sampleParse "2024-03-21" = "Not specified" := by
  have key : ∀ (s : String) (d : Int) (m : Month), s ≠ "" → sampleParse s = some ⟨d, m⟩ →
      1 ≤ d → d ≤ 31 →
      formatStartDate sampleParse s =
        toString d ++ ordinalSuffix d ++ " of " ++ englishMonthName m :=
    fun s d m => (formatStartDate_ordinal sampleParse s).1 d m
  refine ⟨?_, ?_, ?_, ?_, ?_, ?_, ?_, ?_, ?_, ?_, ?_, ?_, ?_, ?_, ?_, ?_, ?_, ?_, ?_, ?_,
    (formatStartDate_ordinal sampleParse "").2 (Or.inl rfl),
    (formatStartDate_ordinal sampleParse "2024-03-21").2 (Or.inr (by decide))⟩
  · rw [key _ 21 .March (by decide) (by decide) (by decide) (by decide)]; decide
  · rw [key _ 1 .March (by decide) (by decide) (by decide) (by decide)]; decide
  · rw [key _ 2 .March (by decide) (by decide) (by decide) (by decide)]; decide
  · rw [key _ 3 .March (by decide) (by decide) (by decide) (by decide)]; decide
  · rw [key _ 4 .March (by decide) (by decide) (by decide) (by decide)]; decide
  · rw [key _ 11 .March (by decide) (by decide) (by decide) (by decide)]; decide
  · rw [key _ 12 .March (by decide) (by decide) (by decide) (by decide)]; decide
  · rw [key _ 13 .March (by decide) (by decide) (by decide) (by decide)]; decide
  · rw [key _ 22 .March (by decide) (by decide) (by decide) (by decide)]; decide
  · rw [key _ 5 .January (by decide) (by decide) (by decide) (by decide)]; decide
  · rw [key _ 5 .February (by decide) (by decide) (by decide) (by decide)]; decide
  · rw [key _ 5 .April (by decide) (by decide) (by decide) (by decide)]; decide
  · rw [key _ 5 .May (by decide) (by decide) (by decide) (by decide)]; decide
  · rw [key _ 5 .June (by decide) (by decide) (by decide) (by decide)]; decide
  · rw [key _ 5 .July (by decide) (by decide) (by decide) (by decide)]; decide
  · rw [key _ 5 .August (by decide) (by decide) (by decide) (by decide)]; decide
  · rw [key _ 5 .September (by decide) (by decide) (by decide) (by decide)]; decide
  · rw [key _ 5 .October (by decide) (by decide) (by decide) (by decide)]; decide
  · rw [key _ 5 .November (by decide) (by decide) (by decide) (by decide)]; decide
  · rw [key _ 5 .December (by decide) (by decide) (by decide) (by decide)]; decide

/-! ## Description truncation -/

theorem goBytes_repeated_length (n : Nat) (c : Char) :
    (goBytes (repeated n c)).length = n * (String.utf8EncodeChar c).length := by
  induction n with
  | zero => simp [goBytes, repeated]
  | succ k ih =>
    simp only [goBytes, repeated, List.replicate_succ, List.flatMap_cons,
      List.length_append] at *
    rw [ih]; ring

theorem goBytes_append (s t : String) : goBytes (s ++ t) = goBytes s ++ goBytes t := by
  simp [goBytes, String.data_append, List.flatMap_append]

theorem goBytes_repeated_add (m k : Nat) (c : Char) :
    goBytes (repeated (m + k) c) = goBytes (repeated m c) ++ goBytes (repeated k c) := by
  simp only [goBytes, repeated, List.replicate_add, List.flatMap_append]

theorem take_goBytes_repeated (len n m k : Nat) (c : Char) (hn : n = m + k)
    (hlen : len = m * (String.utf8EncodeChar c).length) :
    List.take len (goBytes (repeated n c)) = goBytes (repeated m c) := by
  subst hn
  rw [goBytes_repeated_add, hlen, ← goBytes_repeated_length m c, List.take_left]

theorem description_long (d : List UInt8) (h : d.length > 500) :
    description d = d.take 500 ++ goBytes "..." ∧ (description d).length = 503 := by
  have h3 : (goBytes "...").length = 3 := by decide
  have hd : description d = d.take 500 ++ goBytes "..." := by
    simp only [description, h, if_true]
  refine ⟨hd, ?_⟩
  rw [hd, List.length_append, List.length_take, h3]
  omega

theorem description_short (d : List UInt8) (h : d.length ≤ 500) : description d = d := by
  have h2 : ¬ d.length > 500 := by omega
  simp only [description, h2, if_false]

theorem repeated_length (n : Nat) (c : Char) : (repeated n c).length = n := by
  simp [repeated, String.length]

theorem sent_description (parse : String → Option Time) (d : String) (isNew : Bool) :
    (sendNotification parse (describedListing d) isNew).description =
      description (goBytes d) := rfl

theorem goBytes_length_ascii (l : List Char) (h : ∀ c ∈ l, c.toNat < 128) :
    (goBytes (String.mk l)).length = l.length := by
  induction l with
  | nil => rfl
  | cons c cs ih =>
    have hc : c.toNat < 128 := h c (List.mem_cons_self _ _)
    have h1 : c.val ≤ 0x7f := by
      rw [UInt32.le_def, BitVec.le_def]
      have hv : c.val.toBitVec.toNat = c.toNat := rfl
      rw [hv]
      show c.toNat ≤ 127
      omega
    have hsize : (String.utf8EncodeChar c).length = 1 := by
      rw [String.length_utf8EncodeChar]
      simp [Char.utf8Size, h1]
    have ih2 := ih (fun x hx => h x (List.mem_cons_of_mem _ hx))
    simp only [goBytes, List.flatMap_cons, List.length_append, List.length_cons] at *
    rw [ih2, hsize]; omega

theorem description_boundary (p q : String) (hp : (goBytes p).length = 500)
    (hlen : (goBytes (p ++ q)).length > 500) :
    description (goBytes (p ++ q)) = goBytes (p ++ "...") ∧
      (description (goBytes (p ++ q))).length = 503 := by
  obtain ⟨h1, h2⟩ := description_long _ hlen
  refine ⟨?_, h2⟩
  rw [h1, goBytes_append p q, goBytes_append p "...", ← hp, List.take_left]

/-- C8, as amended: with lengths counted in bytes of the UTF-8 text, a
description of at most 500 bytes is sent unchanged; a description longer
than 500 bytes whose byte offset 500 falls between two characters (it is a
text `p` of exactly 500 bytes followed by a text `q`) is sent as `p` followed
by "...", 503 bytes in all. Nothing is stated for a description longer than
500 bytes whose byte offset 500 falls inside a character. In particular, for
a description of ASCII characters only, lengths in characters and in bytes
agree: with more than 500 characters it is sent as its first 500 characters
followed by "...", 503 characters in all, and with at most 500 characters it
is sent unchanged. -/
theorem sendNotification_truncates_at_boundary (parse : String → Option Time)
    (listing : Listing) (isNew : Bool) :
    ((goBytes listing.Description).length ≤ 500 →
      (sendNotification parse listing isNew).description = goBytes listing.Description) ∧
    (∀ p q : String, listing.Description = p ++ q → (goBytes p).length = 500 →
      (goBytes listing.Description).length > 500 →
      (sendNotification parse listing isNew).description = goBytes (p ++ "...") ∧
      (sendNotification parse listing isNew).description.length = 503) ∧
    ((∀ c ∈ listing.Description.data, c.toNat < 128) →
      (listing.Description.length > 500 →
        (sendNotification parse listing isNew).description =
          goBytes (String.mk (listing.Description.data.take 500) ++ "...") ∧
        (String.mk (listing.Description.data.take 500) ++ "...").length = 503 ∧
        (sendNotification parse listing isNew).description.length = 503) ∧
      (listing.Description.length ≤ 500 →
        (sendNotification parse listing isNew).description =
          goBytes listing.Description)) := by
  have hbound : ∀ p q : String, listing.Description = p ++ q → (goBytes p).length = 500 →
      (goBytes listing.Description).length > 500 →
      (sendNotification parse listing isNew).description = goBytes (p ++ "...") ∧
      (sendNotification parse listing isNew).description.length = 503 := by
    intro p q hd hp hlen
    show description (goBytes listing.Description) = _ ∧
      (description (goBytes listing.Description)).length = 503
    rw [hd] at hlen ⊢
    exact description_boundary p q hp hlen
  refine ⟨fun h => description_short _ h, hbound, ?_⟩
  intro hascii
  have hbytes : (goBytes listing.Description).length = listing.Description.length :=
    goBytes_length_ascii listing.Description.data hascii
  constructor
  · intro hlong
    have hlong2 : 500 < listing.Description.data.length := hlong
    have hsplit : listing.Description =
        String.mk (listing.Description.data.take 500) ++
          String.mk (listing.Description.data.drop 500) := by
      show listing.Description =
        String.mk (listing.Description.data.take 500 ++ listing.Description.data.drop 500)
      rw [List.take_append_drop]
    have htake : (listing.Description.data.take 500).length = 500 := by
      rw [List.length_take]; omega
    have hp : (goBytes (String.mk (listing.Description.data.take 500))).length = 500 := by
      rw [goBytes_length_ascii _ (fun c hc => hascii c (List.mem_of_mem_take hc)), htake]
    have hb := hbound _ _ hsplit hp (by rw [hbytes]; exact hlong)
    refine ⟨hb.1, ?_, hb.2⟩
    rw [String.length_append]
    show (listing.Description.data.take 500).length + 3 = 503
    rw [htake]
  · intro hshort
    exact description_short _ (by rw [hbytes]; exact hshort)

/-- C8, instances: a description of 600 letters "a" is sent as 500 letters
"a" and "...", 503 bytes; the description "Nice flat" is sent unchanged; a
description of 251 characters "é" (502 bytes) is 250 of them (500 bytes)
followed by one more, and is sent as the 250 followed by "...". -/
theorem sendNotification_truncates_at_boundary_witness :
    (sendNotification sampleParse (describedListing (repeated 600 (Char.ofNat 97)))
      true).description = goBytes (repeated 500 (Char.ofNat 97) ++ "...") ∧
    (sendNotification sampleParse (describedListing (repeated 600 (Char.ofNat 97)))
      true).description.length = 503 ∧
    (sendNotification sampleParse (describedListing "Nice flat") true).description =
      goBytes "Nice flat" ∧
    (sendNotification sampleParse (describedListing (repeated 251 (Char.ofNat 233)))
      true).description = goBytes (repeated 250 (Char.ofNat 233) ++ "...") := by
  have hascii : ∀ c ∈ (describedListing (repeated 600 (Char.ofNat 97))).Description.data,
      c.toNat < 128 := by
    intro c hc
    have hc2 : c ∈ List.replicate 600 (Char.ofNat 97) := hc
    rw [List.eq_of_mem_replicate hc2]
    decide
  have hlong : (describedListing (repeated 600 (Char.ofNat 97))).Description.length > 500 := by
    show (List.replicate 600 (Char.ofNat 97)).length > 500
    rw [List.length_replicate]; decide
  have h := ((sendNotification_truncates_at_boundary sampleParse
    (describedListing (repeated 600 (Char.ofNat 97))) true).2.2 hascii).1 hlong
  have htake : String.mk ((describedListing (repeated 600 (Char.ofNat 97))).Description.data.take
      500) = repeated 500 (Char.ofNat 97) := by
    show String.mk ((List.replicate 600 (Char.ofNat 97)).take 500) =
      String.mk (List.replicate 500 (Char.ofNat 97))
    rw [List.take_replicate]
    rfl
  have h2 := (sendNotification_truncates_at_boundary sampleParse
    (describedListing "Nice flat") true).1 (by decide)
  have e2 : (String.utf8EncodeChar (Char.ofNat 233)).length = 2 := by decide
  have h3 := (sendNotification_truncates_at_boundary sampleParse
    (describedListing (repeated 251 (Char.ofNat 233))) true).2.1
    (repeated 250 (Char.ofNat 233)) (repeated 1 (Char.ofNat 233))
    (by
      show String.mk (List.replicate (250 + 1) (Char.ofNat 233)) =
        String.mk (List.replicate 250 (Char.ofNat 233) ++ List.replicate 1 (Char.ofNat 233))
      rw [List.replicate_add])
    (by rw [goBytes_repeated_length, e2])
    (by
      show (goBytes (repeated 251 (Char.ofNat 233))).length > 500
      rw [goBytes_repeated_length, e2]; decide)
  rw [htake] at h
  exact ⟨h.1, h.2.2, h2, h3.1⟩

/-- The behaviour left out of C8 as amended: a description of 499 letters "a"
followed by "øk" has 501 characters and 502 bytes, and byte offset 500 falls
inside the two bytes of "ø"; what is sent is the 499 letters, the first byte
of "ø" alone (195), and "...". -/
theorem description_cut_inside_character :
    (repeated 499 (Char.ofNat 97) ++ "øk").length = 501 ∧
    (goBytes (repeated 499 (Char.ofNat 97) ++ "øk")).length = 502 ∧
    (sendNotification sampleParse (describedListing (repeated 499 (Char.ofNat 97) ++ "øk"))
      true).description = goBytes (repeated 499 (Char.ofNat 97)) ++ [195] ++ goBytes "..." := by
  have e1 : (String.utf8EncodeChar (Char.ofNat 97)).length = 1 := by decide
  have hA : (goBytes (repeated 499 (Char.ofNat 97))).length = 499 := by
    rw [goBytes_repeated_length, e1]
  have hk : goBytes "øk" = [195, 184, 107] := by decide
  have hlenS : (repeated 499 (Char.ofNat 97)).length = 499 := repeated_length _ _
  have hlen : (goBytes (repeated 499 (Char.ofNat 97) ++ "øk")).length = 502 := by
    rw [goBytes_append, List.length_append, hA, hk]; rfl
  refine ⟨?_, hlen, ?_⟩
  · rw [String.length_append, hlenS]; decide
  · rw [sent_description, (description_long _ (by rw [hlen]; decide)).1, goBytes_append, hk,
      List.take_append_eq_append_take, hA, List.take_of_length_le (by rw [hA]; decide)]
    rfl

/-- C8, counterexample to the claim with lengths counted in characters: a
description of 251 characters "é" (2 bytes each, 502 bytes) has at most 500
characters and is not sent unchanged, but as its first 250 characters and
"..."; a description of 501 such characters is not sent as its first
500 characters and "...", and what is sent has 253 characters, not 503. -/
theorem description_characters_counterexample :
    (repeated 251 (Char.ofNat 233)).length ≤ 500 ∧
    (sendNotification sampleParse (describedListing (repeated 251 (Char.ofNat 233)))
      true).description ≠ goBytes (repeated 251 (Char.ofNat 233)) ∧
    (sendNotification sampleParse (describedListing (repeated 251 (Char.ofNat 233)))
      true).description = goBytes (repeated 250 (Char.ofNat 233) ++ "...") ∧
    (repeated 501 (Char.ofNat 233)).length > 500 ∧
    (sendNotification sampleParse (describedListing (repeated 501 (Char.ofNat 233)))
      true).description ≠ goBytes (repeated 500 (Char.ofNat 233) ++ "...") ∧
    (sendNotification sampleParse (describedListing (repeated 501 (Char.ofNat 233)))
      true).description = goBytes (repeated 250 (Char.ofNat 233) ++ "...") ∧
    (repeated 250 (Char.ofNat 233) ++ "...").length = 253 := by
  have e2 : (String.utf8EncodeChar (Char.ofNat 233)).length = 2 := by decide
  have hsent : ∀ n, 251 ≤ n →
      (sendNotification sampleParse (describedListing (repeated n (Char.ofNat 233)))
        true).description = goBytes (repeated 250 (Char.ofNat 233) ++ "...") := by
    intro n hn
    have hl : (goBytes (repeated n (Char.ofNat 233))).length > 500 := by
      rw [goBytes_repeated_length, e2]; omega
    show description (goBytes (repeated n (Char.ofNat 233))) = _
    have ht : List.take 500 (goBytes (repeated n (Char.ofNat 233))) =
        goBytes (repeated 250 (Char.ofNat 233)) :=
      take_goBytes_repeated 500 n 250 (n - 250) (Char.ofNat 233) (by omega) (by rw [e2])
    rw [(description_long _ hl).1, goBytes_append, ht]
  have hlenS : ∀ n, (repeated n (Char.ofNat 233)).length = n := by
    intro n; simp [repeated, String.length]
  have hblen : ∀ s : String, (goBytes (repeated 250 (Char.ofNat 233) ++ s)).length =
      500 + (goBytes s).length := by
    intro s; rw [goBytes_append, List.length_append, goBytes_repeated_length, e2]
  have h3 : (goBytes "...").length = 3 := by decide
  refine ⟨by rw [hlenS]; decide, ?_, hsent 251 (le_refl _), by rw [hlenS]; decide, ?_,
    hsent 501 (by decide), ?_⟩
  · rw [hsent 251 (le_refl _)]
    intro h
    have := congrArg List.length h
    rw [hblen, h3, goBytes_repeated_length, e2] at this
    omega
  · rw [hsent 501 (by decide)]
    intro h
    have := congrArg List.length h
    rw [hblen, h3, goBytes_append, List.length_append, goBytes_repeated_length, e2, h3] at this
    omega
  · rw [String.length_append, hlenS]; decide

end QasaBot
